import Mathlib

/-!
Verification of the core logic of semver-calc-go: conventional-commit
classification, bump aggregation, product/variant configuration, file-glob
product matching, scope-to-variant resolution and version parsing.

Strings are modelled as lists of characters (`Str`), matching Go strings
rune-for-rune for the ASCII inputs the tool manipulates.
-/

/-- A Go string, modelled as its list of characters. -/
abbrev Str := List Char

/-- A parsed conventional commit (Go struct `commit.Commit`). The Go field
`Type` is called `ctype` here because `Type` is reserved in Lean. -/
structure Commit where
  hash : Str := []
  ctype : Str := []
  scope : Str := []
  description : Str := []
  breaking : Bool := false
deriving DecidableEq

/-- The loop of Go `commit.DetermineBump`: a running level starting at
`"none"`, with an early return of `"major"` on a breaking feat/fix commit. -/
def determineBumpLoop (bump : Str) : List Commit → Str
  | [] => bump
  | c :: rest =>
    if c.breaking = true ∧ (c.ctype = ("feat".toList) ∨ c.ctype = ("fix".toList)) then
      "major".toList
    else
      determineBumpLoop
        (if c.ctype = ("feat".toList) then
          (if bump ≠ ("major".toList) then "minor".toList else bump)
         else if c.ctype = ("fix".toList) then
          (if bump = ("none".toList) then "patch".toList else bump)
         else bump)
        rest

/-- Go `commit.DetermineBump`: highest bump level needed by a commit list. -/
def DetermineBump (commits : List Commit) : Str :=
  determineBumpLoop ("none".toList) commits

/-- A commit that triggers the breaking-change early return of
`DetermineBump`: breaking with type feat or fix. -/
def isBreakingRelevant (c : Commit) : Bool :=
  decide (c.breaking = true ∧ (c.ctype = ("feat".toList) ∨ c.ctype = ("fix".toList)))

/-- A commit of type `feat`. -/
def isFeatCommit (c : Commit) : Bool := decide (c.ctype = ("feat".toList))

/-- A commit of type `fix`. -/
def isFixCommit (c : Commit) : Bool := decide (c.ctype = ("fix".toList))

lemma determineBumpLoop_characterization (cs : List Commit) : ∀ bump : Str,
    bump = ("none".toList) ∨ bump = ("patch".toList) ∨ bump = ("minor".toList) →
    determineBumpLoop bump cs =
      (if cs.any isBreakingRelevant then "major".toList
       else if cs.any isFeatCommit then "minor".toList
       else if cs.any isFixCommit then
         (if bump = ("none".toList) then "patch".toList else bump)
       else bump) := by
  induction cs with
  | nil =>
    intro bump _
    simp [determineBumpLoop]
  | cons c rest ih =>
    intro bump hbump
    by_cases hf : c.ctype = ("feat".toList)
    · have hf2 : c.ctype = ['f', 'e', 'a', 't'] := hf
      by_cases hb : c.breaking = true
      · simp [determineBumpLoop, isBreakingRelevant, isFeatCommit, hf, hb]
      · have hmaj : bump ≠ ("major".toList) := by
          rcases hbump with h | h | h <;> subst h <;> decide
        have hb2 : c.breaking = false := by
          rw [Bool.not_eq_true] at hb
          exact hb
        rw [determineBumpLoop, if_neg (by tauto), if_pos hf, if_pos hmaj,
          ih ("minor".toList) (Or.inr (Or.inr rfl))]
        simp [List.any_cons, isBreakingRelevant, isFeatCommit, isFixCommit, hf2, hb2]
    · by_cases hx : c.ctype = ("fix".toList)
      · have hx2 : c.ctype = ['f', 'i', 'x'] := hx
        have hf2 : ¬ c.ctype = ['f', 'e', 'a', 't'] := hf
        by_cases hb : c.breaking = true
        · simp [determineBumpLoop, isBreakingRelevant, isFixCommit, hx, hb]
        · have hb2 : c.breaking = false := by
            rw [Bool.not_eq_true] at hb
            exact hb
          rw [determineBumpLoop, if_neg (by tauto), if_neg hf, if_pos hx]
          have hnb : (if bump = ("none".toList) then "patch".toList else bump) = ("none".toList) ∨
              (if bump = ("none".toList) then "patch".toList else bump) = ("patch".toList) ∨
              (if bump = ("none".toList) then "patch".toList else bump) = ("minor".toList) := by
            rcases hbump with h | h | h <;> subst h <;> simp
          have hnbne : (if bump = ("none".toList) then "patch".toList else bump) ≠ ("none".toList) := by
            rcases hbump with h | h | h <;> subst h <;> simp
          have hnbne2 : (if bump = ['n', 'o', 'n', 'e'] then ['p', 'a', 't', 'c', 'h'] else bump) ≠
              ['n', 'o', 'n', 'e'] := hnbne
          rw [ih _ hnb]
          simp [List.any_cons, isBreakingRelevant, isFeatCommit, isFixCommit,
            hf2, hx2, hb2, hnbne2]
      · have hf2 : ¬ c.ctype = ['f', 'e', 'a', 't'] := hf
        have hx2 : ¬ c.ctype = ['f', 'i', 'x'] := hx
        rw [determineBumpLoop, if_neg (by tauto), if_neg hf, if_neg hx, ih bump hbump]
        simp [List.any_cons, isBreakingRelevant, isFeatCommit, isFixCommit, hf2, hx2]

lemma determineBump_characterization (cs : List Commit) :
    DetermineBump cs =
      (if cs.any isBreakingRelevant then "major".toList
       else if cs.any isFeatCommit then "minor".toList
       else if cs.any isFixCommit then "patch".toList
       else "none".toList) := by
  have := determineBumpLoop_characterization cs ("none".toList) (Or.inl rfl)
  simpa [DetermineBump] using this

/-- C3: `DetermineBump` returns major exactly when some commit is breaking
with type feat or fix; otherwise minor when some commit is a feat, otherwise
patch when some commit is a fix, otherwise none. Other commit types never
affect the result and the empty sequence yields none. -/
theorem claim_C3_determineBump_levels (commits : List Commit) :
    DetermineBump commits =
      (if commits.any isBreakingRelevant then "major".toList
       else if commits.any isFeatCommit then "minor".toList
       else if commits.any isFixCommit then "patch".toList
       else "none".toList) :=
  determineBump_characterization commits

/-- Go `config.ProductConfig`: file globs, optional variant names and an
optional custom tag-prefix override (YAML key `tag_prefix`, Go field
`TagPrefix`; called `tagPfx` here). -/
structure ProductConfig where
  Globs : List Str := []
  Variants : List Str := []
  tagPfx : Str := []
deriving DecidableEq

/-- Go `config.Config`: the product registry. The Go `map[string]ProductConfig`
is modelled as an association list with the distinct keys a Go map guarantees;
map iteration order is arbitrary in Go, so nothing proved below about
membership or success depends on the list order. -/
structure Config where
  Products : List (Str × ProductConfig)
deriving DecidableEq

/-- Keyed lookup in the products map. -/
def findProduct (cfg : Config) (name : Str) : Option ProductConfig :=
  (cfg.Products.find? (fun e => decide (e.1 = name))).map (fun e => e.2)

/-- Go `config.ProductVariant`: a product-variant identity (with the
product's tag-prefix override carried along, Go field `TagPrefix`). -/
structure ProductVariant where
  Product : Str
  Variant : Str := []
  tagPfx : Str := []
deriving DecidableEq

/-- Go `ProductVariant.TagName`: the tag-prefix override verbatim when set,
except that the literal value `"v"` yields the empty string; otherwise the
product name alone, or `product-variant`. -/
def ProductVariant.TagName (pv : ProductVariant) : Str :=
  if pv.tagPfx ≠ [] then
    (if pv.tagPfx = ("v".toList) then [] else pv.tagPfx)
  else if pv.Variant = [] then pv.Product
  else pv.Product ++ ('-' :: pv.Variant)

/-- Go `Config.HasVariants`. -/
def Config.HasVariants (cfg : Config) (product : Str) : Bool :=
  match findProduct cfg product with
  | none => false
  | some pc => decide (pc.Variants.length > 0)

/-- Go `Config.GetVariantsForProduct`: `none` when the product is unknown;
a single empty-variant identity when it has no variants; otherwise one
identity per configured variant, in order. -/
def Config.GetVariantsForProduct (cfg : Config) (product : Str) :
    Option (List ProductVariant) :=
  match findProduct cfg product with
  | none => none
  | some pc =>
    if pc.Variants = [] then some [⟨product, [], pc.tagPfx⟩]
    else some (pc.Variants.map (fun v => ⟨product, v, pc.tagPfx⟩))

/-- Go `Config.GetGlobs`. -/
def Config.GetGlobs (cfg : Config) (product : Str) : Option (List Str) :=
  (findProduct cfg product).map (fun pc => pc.Globs)

/-- Matching of one compiled glob pattern against one path, with `'/'` as
the significant separator: `?` matches one non-separator character, `*` a
run of non-separator characters, `**` any run of characters. This is the
documented semantics of the glob library the matcher compiles patterns
with, for the pattern constructs this repository's configurations use
(literals, `?`, `*`, `**`); character classes and brace alternates do not
occur in them and are treated as literal characters here. -/
def globMatch : Str → Str → Bool
  | [], s => decide (s = [])
  | '*' :: '*' :: p, s =>
    (List.range (s.length + 1)).any (fun i => globMatch p (s.drop i))
  | '*' :: p, s =>
    (List.range (s.length + 1)).any (fun i =>
      (s.take i).all (fun c => decide (c ≠ '/')) && globMatch p (s.drop i))
  | '?' :: p, s =>
    (match s with
     | [] => false
     | c :: s2 => decide (c ≠ '/') && globMatch p s2)
  | c :: p, s =>
    (match s with
     | [] => false
     | d :: s2 => decide (c = d) && globMatch p s2)

/-- The per-product pattern list `NewMatcher` compiles: the configured globs,
or the single catch-all `"**"` when none are configured. -/
def effectiveGlobs (pc : ProductConfig) : List Str :=
  if pc.Globs = [] then ["**".toList] else pc.Globs

/-- The compiled-glob table `NewMatcher` builds: one entry per product. -/
def matcherGlobs (cfg : Config) : List (Str × List Str) :=
  cfg.Products.map (fun e => (e.1, effectiveGlobs e.2))

/-- Marking a product as matched in the Go `map[string]bool` set: a second
mark of the same product changes nothing. -/
def insertProduct (acc : List Str) (name : Str) : List Str :=
  if name ∈ acc then acc else acc ++ [name]

/-- Go `Matcher.MatchFiles`: which products are affected by a set of files.
A product is marked when any file matches any of its patterns (the Go loop
breaks after the first matching pattern per product). -/
def MatchFiles (cfg : Config) (files : List Str) : List Str :=
  files.foldl
    (fun acc f =>
      (matcherGlobs cfg).foldl
        (fun acc2 e =>
          if e.2.any (fun g => globMatch g f) then insertProduct acc2 e.1 else acc2)
        acc)
    []

/-- Go `Matcher.FilterVariantsByScope`: per touched product, a variant-less
product contributes its single identity regardless of scope; a product with
variants contributes the one variant the scope names, or all of its variants
when the scope is empty or names none of them. -/
def FilterVariantsByScope (cfg : Config) : List Str → Str → List ProductVariant
  | [], _ => []
  | product :: rest, scope =>
    (if ¬ (cfg.HasVariants product = true) then [⟨product, [], []⟩]
     else
       match cfg.GetVariantsForProduct product with
       | none => []
       | some variants =>
         if scope = [] then variants
         else
           match variants.find? (fun pv => decide (pv.Variant = scope)) with
           | some pv => [pv]
           | none => variants)
    ++ FilterVariantsByScope cfg rest scope

/-- Go `Matcher.MatchCommit`: match the commit's files to products, then
resolve the commit's scope against each touched product's variants. -/
def MatchCommit (cfg : Config) (c : Commit) (files : List Str) :
    List ProductVariant :=
  let matchedProducts := MatchFiles cfg files
  if matchedProducts = [] then []
  else FilterVariantsByScope cfg matchedProducts c.scope

/-- Go `Matcher.MatchesProductVariant`: whether the commit affects the given
product-variant identity. -/
def MatchesProductVariant (cfg : Config) (c : Commit) (files : List Str)
    (target : ProductVariant) : Bool :=
  (MatchCommit cfg c files).any
    (fun pv => decide (pv.Product = target.Product ∧ pv.Variant = target.Variant))

/-- Go `commit.MatchesScopes`: false for a non-conventional commit, true for
an unscoped conventional commit, otherwise exact membership of the commit's
scope in the given scope list. -/
def MatchesScopes (c : Commit) (scopes : List Str) : Bool :=
  if c.ctype = [] then false
  else if c.scope = [] then true
  else scopes.any (fun s => decide (c.scope = s))

/-- Go `commit.FilterByScopes`: the sub-sequence of commits matching the
scopes, in order. -/
def FilterByScopes (commits : List Commit) (scopes : List Str) : List Commit :=
  commits.filter (fun c => MatchesScopes c scopes)

/-- Whether the second string starts with the first (Go `strings.HasPrefix`
with the arguments swapped). -/
def leadsWith : Str → Str → Bool
  | [], _ => true
  | _ :: _, [] => false
  | c :: pre, d :: s => decide (c = d) && leadsWith pre s

lemma leadsWith_iff (pre : Str) : ∀ s : Str, leadsWith pre s = true ↔ ∃ rest, s = pre ++ rest := by
  induction pre with
  | nil =>
    intro s
    simp [leadsWith]
  | cons c pre ih =>
    intro s
    cases s with
    | nil =>
      simp [leadsWith]
    | cons d s =>
      simp only [leadsWith, Bool.and_eq_true, decide_eq_true_eq, ih s, List.cons_append,
        List.cons.injEq]
      constructor
      · rintro ⟨rfl, rest, rfl⟩
        exact ⟨rest, rfl, rfl⟩
      · rintro ⟨rest, rfl, rfl⟩
        exact ⟨rfl, rest, rfl⟩

/-- The product loop of Go `parseTarget` (main package): the first product
whose name followed by a hyphen starts the target and whose variant list
contains the rest of the target. -/
def parseTargetLoop (target : Str) : List (Str × ProductConfig) → Option ProductVariant
  | [] => none
  | (productName, pc) :: rest =>
    if leadsWith (productName ++ ['-']) target = true then
      match pc.Variants.find? (fun v => decide (v = target.drop (productName.length + 1))) with
      | some v => some ⟨productName, v, []⟩
      | none => parseTargetLoop target rest
    else parseTargetLoop target rest

/-- Go `parseTarget` (main package): a bare product name resolves only when
that product has no variants; otherwise the target is matched as
`product-variant` against every product's variant list. -/
def parseTarget (cfg : Config) (target : Str) : Option ProductVariant :=
  match findProduct cfg target with
  | some pc =>
    if pc.Variants.length = 0 then some ⟨target, [], []⟩
    else parseTargetLoop target cfg.Products
  | none => parseTargetLoop target cfg.Products

/-- C5: `tagName` returns the per-product tag-prefix override verbatim when
one is set, except that the override value `"v"` maps to the empty string;
with no override it returns the product name alone when the variant is
empty, and `product-variant` otherwise. -/
theorem claim_C5_tagName_derivation (pv : ProductVariant) :
    (pv.tagPfx = ("v".toList) → ProductVariant.TagName pv = []) ∧
    (pv.tagPfx ≠ [] → pv.tagPfx ≠ ("v".toList) → ProductVariant.TagName pv = pv.tagPfx) ∧
    (pv.tagPfx = [] → pv.Variant = [] → ProductVariant.TagName pv = pv.Product) ∧
    (pv.tagPfx = [] → pv.Variant ≠ [] →
      ProductVariant.TagName pv = pv.Product ++ ('-' :: pv.Variant)) := by
  refine ⟨fun h1 => ?_, fun h1 h2 => ?_, fun h1 h2 => ?_, fun h1 h2 => ?_⟩
  · have h1' : pv.tagPfx ≠ [] := by rw [h1]; decide
    rw [ProductVariant.TagName, if_pos h1', if_pos h1]
  · rw [ProductVariant.TagName, if_pos h1, if_neg h2]
  · have h1' : ¬ pv.tagPfx ≠ [] := by simp [h1]
    rw [ProductVariant.TagName, if_neg h1', if_pos h2]
  · have h1' : ¬ pv.tagPfx ≠ [] := by simp [h1]
    rw [ProductVariant.TagName, if_neg h1', if_neg h2]

lemma insertProduct_nodup (acc : List Str) (n : Str) (h : acc.Nodup) :
    (insertProduct acc n).Nodup := by
  unfold insertProduct
  split
  · exact h
  · rename_i hn
    simp [List.nodup_append, h, hn]

lemma matchFilesInner_nodup (f : Str) :
    ∀ (entries : List (Str × List Str)) (acc : List Str), acc.Nodup →
    (entries.foldl
      (fun acc2 e =>
        if e.2.any (fun g => globMatch g f) then insertProduct acc2 e.1 else acc2)
      acc).Nodup := by
  intro entries
  induction entries with
  | nil => intro acc h; simpa using h
  | cons e rest ih =>
    intro acc h
    simp only [List.foldl_cons]
    split
    · exact ih _ (insertProduct_nodup _ _ h)
    · exact ih _ h

/-- C10: `matchFiles` never lists a product twice, whatever the files
(repeated paths included) and however many patterns match. -/
theorem claim_C10_matchFiles_no_duplicates (cfg : Config) (files : List Str) :
    (MatchFiles cfg files).Nodup := by
  unfold MatchFiles
  generalize hacc : ([] : List Str) = acc
  have hnd : acc.Nodup := by rw [← hacc]; exact List.nodup_nil
  clear hacc
  induction files generalizing acc with
  | nil => simpa using hnd
  | cons f rest ih =>
    simp only [List.foldl_cons]
    exact ih _ (matchFilesInner_nodup f _ _ hnd)

lemma mem_insertProduct {q n : Str} {acc : List Str} :
    q ∈ insertProduct acc n ↔ q ∈ acc ∨ q = n := by
  unfold insertProduct
  split
  · rename_i hm
    exact ⟨Or.inl, fun h => h.elim id (fun e => e ▸ hm)⟩
  · simp [List.mem_append]

lemma mem_matchFilesInner (f : Str) (entries : List (Str × List Str))
    (acc : List Str) (q : Str) :
    q ∈ entries.foldl
        (fun acc2 e =>
          if e.2.any (fun g => globMatch g f) then insertProduct acc2 e.1 else acc2)
        acc ↔
      q ∈ acc ∨ ∃ e ∈ entries, e.1 = q ∧ e.2.any (fun g => globMatch g f) = true := by
  induction entries generalizing acc with
  | nil => simp
  | cons e rest ih =>
    simp only [List.foldl_cons]
    split
    · rename_i hmatch
      rw [ih, mem_insertProduct]
      constructor
      · rintro ((h | rfl) | ⟨e2, he2, rfl, hm2⟩)
        · exact Or.inl h
        · exact Or.inr ⟨e, List.mem_cons_self _ _, rfl, hmatch⟩
        · exact Or.inr ⟨e2, List.mem_cons_of_mem _ he2, rfl, hm2⟩
      · rintro (h | ⟨e2, he2, rfl, hm2⟩)
        · exact Or.inl (Or.inl h)
        · rcases List.mem_cons.mp he2 with rfl | he2
          · exact Or.inl (Or.inr rfl)
          · exact Or.inr ⟨e2, he2, rfl, hm2⟩
    · rename_i hmatch
      rw [ih]
      constructor
      · rintro (h | ⟨e2, he2, rfl, hm2⟩)
        · exact Or.inl h
        · exact Or.inr ⟨e2, List.mem_cons_of_mem _ he2, rfl, hm2⟩
      · rintro (h | ⟨e2, he2, rfl, hm2⟩)
        · exact Or.inl h
        · rcases List.mem_cons.mp he2 with rfl | he2
          · exact absurd hm2 (by simpa using hmatch)
          · exact Or.inr ⟨e2, he2, rfl, hm2⟩

lemma mem_matchFiles (cfg : Config) (files : List Str) (q : Str) :
    q ∈ MatchFiles cfg files ↔
      ∃ f ∈ files, ∃ e ∈ matcherGlobs cfg, e.1 = q ∧
        e.2.any (fun g => globMatch g f) = true := by
  unfold MatchFiles
  have main : ∀ acc : List Str,
      q ∈ files.foldl
          (fun acc f =>
            (matcherGlobs cfg).foldl
              (fun acc2 e =>
                if e.2.any (fun g => globMatch g f) then insertProduct acc2 e.1 else acc2)
              acc)
          acc ↔
        q ∈ acc ∨ ∃ f ∈ files, ∃ e ∈ matcherGlobs cfg, e.1 = q ∧
          e.2.any (fun g => globMatch g f) = true := by
    induction files with
    | nil => simp
    | cons f rest ih =>
      intro acc
      simp only [List.foldl_cons]
      rw [ih, mem_matchFilesInner]
      constructor
      · rintro ((h | ⟨e, he, rfl, hm⟩) | ⟨f2, hf2, e, he, rfl, hm⟩)
        · exact Or.inl h
        · exact Or.inr ⟨f, List.mem_cons_self _ _, e, he, rfl, hm⟩
        · exact Or.inr ⟨f2, List.mem_cons_of_mem _ hf2, e, he, rfl, hm⟩
      · rintro (h | ⟨f2, hf2, e, he, rfl, hm⟩)
        · exact Or.inl (Or.inl h)
        · rcases List.mem_cons.mp hf2 with rfl | hf2
          · exact Or.inl (Or.inr ⟨e, he, rfl, hm⟩)
          · exact Or.inr ⟨f2, hf2, e, he, rfl, hm⟩
  simpa using main []

lemma globMatch_superstar (s : Str) : globMatch ("**".toList) s = true := by
  show globMatch ['*', '*'] s = true
  rw [globMatch, List.any_eq_true]
  exact ⟨s.length, by simp [List.mem_range], by simp [globMatch]⟩

/-- C8: `matchFiles` includes a product exactly when some changed path
matches some of that product's glob patterns; a product configured with no
patterns matches every path. -/
theorem claim_C8_matchFiles_union (cfg : Config) (files : List Str) (p : Str) :
    p ∈ MatchFiles cfg files ↔
      ∃ pc, (p, pc) ∈ cfg.Products ∧ ∃ f ∈ files,
        (if pc.Globs = [] then True
         else ∃ g ∈ pc.Globs, globMatch g f = true) := by
  rw [mem_matchFiles]
  constructor
  · rintro ⟨f, hf, e, he, he1, hm⟩
    rw [matcherGlobs, List.mem_map] at he
    obtain ⟨⟨name, pc⟩, hmem, hemap⟩ := he
    subst hemap
    have hnp : name = p := he1
    subst hnp
    refine ⟨pc, hmem, f, hf, ?_⟩
    by_cases hg : pc.Globs = []
    · simp [hg]
    · rw [if_neg hg]
      rw [List.any_eq_true] at hm
      obtain ⟨g, hgm, hgt⟩ := hm
      rw [effectiveGlobs, if_neg hg] at hgm
      exact ⟨g, hgm, hgt⟩
  · rintro ⟨pc, hmem, f, hf, hcond⟩
    refine ⟨f, hf, (p, effectiveGlobs pc), ?_, rfl, ?_⟩
    · rw [matcherGlobs, List.mem_map]
      exact ⟨(p, pc), hmem, rfl⟩
    · rw [List.any_eq_true]
      by_cases hg : pc.Globs = []
      · refine ⟨("**".toList), ?_, globMatch_superstar f⟩
        simp [effectiveGlobs, hg]
      · rw [if_neg hg] at hcond
        obtain ⟨g, hgm, hgt⟩ := hcond
        refine ⟨g, ?_, hgt⟩
        simp [effectiveGlobs, hg, hgm]

lemma find_variant (p tp scope : Str) (vs : List Str) :
    ((vs.map (fun v => (⟨p, v, tp⟩ : ProductVariant))).find?
        (fun pv => decide (pv.Variant = scope))) =
      (if scope ∈ vs then some ⟨p, scope, tp⟩ else none) := by
  induction vs with
  | nil => simp
  | cons v vs ih =>
    simp only [List.map_cons, List.find?_cons]
    by_cases hv : v = scope
    · subst hv
      simp
    · have hv' : ¬ scope = v := fun h => hv h.symm
      have : (decide ((⟨p, v, tp⟩ : ProductVariant).Variant = scope)) = false := by
        simpa using hv
      rw [this, ih]
      simp [List.mem_cons, hv']

lemma filterVariantsByScope_flat (cfg : Config) (scope : Str) :
    ∀ products : List Str,
      FilterVariantsByScope cfg products scope =
        products.flatMap (fun q => FilterVariantsByScope cfg [q] scope) := by
  intro products
  induction products with
  | nil => simp [FilterVariantsByScope]
  | cons p rest ih =>
    rw [List.flatMap_cons, ← ih]
    rw [FilterVariantsByScope]
    conv_rhs => rw [FilterVariantsByScope]
    rw [FilterVariantsByScope]
    simp

/-- C1: for a touched product with a non-empty variant list and a non-empty
commit scope, scope resolution contributes exactly the named variant when
the scope equals a configured variant name, and all of the product's
variants when it names none of them; the product's contribution is never
empty. Resolution over a product list is the concatenation of the
per-product contributions. -/
theorem claim_C1_scope_refine_or_widen (cfg : Config) (products : List Str)
    (scope p : Str) (pc : ProductConfig)
    (hp : findProduct cfg p = some pc) (hv : pc.Variants ≠ []) (hs : scope ≠ []) :
    FilterVariantsByScope cfg [p] scope =
      (if scope ∈ pc.Variants then [⟨p, scope, pc.tagPfx⟩]
       else pc.Variants.map (fun v => ⟨p, v, pc.tagPfx⟩)) ∧
    FilterVariantsByScope cfg [p] scope ≠ [] ∧
    FilterVariantsByScope cfg products scope =
      products.flatMap (fun q => FilterVariantsByScope cfg [q] scope) := by
  have hvar : cfg.HasVariants p = true := by
    rw [Config.HasVariants, hp]
    simpa [List.length_pos] using hv
  have hget : cfg.GetVariantsForProduct p =
      some (pc.Variants.map (fun v => ⟨p, v, pc.tagPfx⟩)) := by
    simp [Config.GetVariantsForProduct, hp, hv]
  have hmain : FilterVariantsByScope cfg [p] scope =
      (if scope ∈ pc.Variants then [⟨p, scope, pc.tagPfx⟩]
       else pc.Variants.map (fun v => ⟨p, v, pc.tagPfx⟩)) := by
    rw [FilterVariantsByScope, FilterVariantsByScope]
    simp only [hvar, not_true_eq_false, if_false, hget, List.append_nil]
    rw [if_neg hs, find_variant]
    by_cases hmem : scope ∈ pc.Variants
    · simp [hmem]
    · simp [hmem]
  refine ⟨hmain, ?_, filterVariantsByScope_flat cfg scope products⟩
  rw [hmain]
  by_cases hmem : scope ∈ pc.Variants
  · simp [hmem]
  · simp [hmem, hv]

/-- The product configuration of the `mobile` product used for concrete
instances: glob `apps/mobile/**`, variants `customerA` and `customerB`. -/
def pcMobile : ProductConfig :=
  ⟨[("apps/mobile/**".toList)], [("customerA".toList), ("customerB".toList)], []⟩

/-- A one-product configuration used for concrete instances. -/
def cfgMobile : Config := ⟨[(("mobile".toList), pcMobile)]⟩

/-- A commit record with an empty type field, as the classifier produces for
a non-conventional commit subject. -/
def nonConvCommit : Commit := { ctype := [], scope := [], description := ("update stuff".toList) }

/-- C2 fails as stated: an empty-type commit is still counted as matching a
product-variant in config mode, because `MatchCommit` ignores the commit's
type; here the non-conventional commit matches `mobile`/`customerA` through
its changed file. -/
theorem claim_C2_counterexample :
    nonConvCommit.ctype = [] ∧
    MatchesProductVariant cfgMobile nonConvCommit [("apps/mobile/foo.ts".toList)]
      ⟨("mobile".toList), ("customerA".toList), []⟩ = true := by
  constructor
  · rfl
  · decide

/-- C2 amended: a commit with empty type never contributes to the bump
level (removing it from any position changes nothing) and never matches the
legacy scope filter; in config mode, however, matching ignores the commit's
type entirely, so such a commit matches product-variants through its files
exactly as a typed commit with the same scope would. -/
theorem claim_C2_empty_type_amended :
    (∀ (l1 l2 : List Commit) (c : Commit), c.ctype = [] →
      DetermineBump (l1 ++ c :: l2) = DetermineBump (l1 ++ l2)) ∧
    (∀ (c : Commit) (scopes : List Str), c.ctype = [] →
      MatchesScopes c scopes = false) ∧
    (∀ (cfg : Config) (c : Commit) (files : List Str),
      MatchCommit cfg c files = MatchCommit cfg { c with ctype := [] } files) := by
  refine ⟨?_, ?_, ?_⟩
  · intro l1 l2 c hc
    have h1 : isBreakingRelevant c = false := by
      simp [isBreakingRelevant, hc]
    have h2 : isFeatCommit c = false := by
      simp [isFeatCommit, hc]
    have h3 : isFixCommit c = false := by
      simp [isFixCommit, hc]
    rw [determineBump_characterization, determineBump_characterization]
    simp [List.any_append, List.any_cons, h1, h2, h3]
  · intro c scopes hc
    simp [MatchesScopes, hc]
  · intro cfg c files
    rfl

/-- The bump level of a commit sequence as `DetermineBump` computes it,
written as one test per level. -/
def specLevel (cs : List Commit) : Str :=
  if cs.any isBreakingRelevant then "major".toList
  else if cs.any isFeatCommit then "minor".toList
  else if cs.any isFixCommit then "patch".toList
  else "none".toList

/-- The numeric severity of a bump level: major > minor > patch > none. -/
def levelValue (l : Str) : Nat :=
  if l = ("major".toList) then 3
  else if l = ("minor".toList) then 2
  else if l = ("patch".toList) then 1
  else 0

/-- The more severe of two bump levels. -/
def levelMax (a b : Str) : Str :=
  if levelValue a < levelValue b then b else a

/-- The bump level a single commit calls for on its own. -/
def commitLevel (c : Commit) : Str :=
  if isBreakingRelevant c then "major".toList
  else if isFeatCommit c then "minor".toList
  else if isFixCommit c then "patch".toList
  else "none".toList

/-- The spec's description of the aggregator as a plain full scan with no
breaking-change short-circuit: fold the per-commit levels together with the
severity maximum, starting from none. -/
def specFullScanBump (commits : List Commit) : Str :=
  commits.foldl (fun acc c => levelMax acc (commitLevel c)) ("none".toList)

/-- One of the four level strings. -/
abbrev isCanonLevel (s : Str) : Prop :=
  s = ("none".toList) ∨ s = ("patch".toList) ∨ s = ("minor".toList) ∨ s = ("major".toList)

lemma commitLevel_canonical (c : Commit) : isCanonLevel (commitLevel c) := by
  unfold commitLevel isCanonLevel
  split_ifs <;> simp

lemma specLevel_canonical (cs : List Commit) : isCanonLevel (specLevel cs) := by
  unfold specLevel isCanonLevel
  split_ifs <;> simp

lemma levelMax_canonical {a b : Str} (ha : isCanonLevel a) (hb : isCanonLevel b) :
    isCanonLevel (levelMax a b) := by
  rcases ha with h | h | h | h <;> rcases hb with h2 | h2 | h2 | h2 <;>
    subst h <;> subst h2 <;> decide

lemma levelMax_none_right {a : Str} : levelMax a ("none".toList) = a := by
  have h0 : levelValue ['n', 'o', 'n', 'e'] = 0 := by decide
  simp [levelMax, h0]

lemma levelMax_assoc_canonical {a b c : Str} (ha : isCanonLevel a)
    (hb : isCanonLevel b) (hc : isCanonLevel c) :
    levelMax (levelMax a b) c = levelMax a (levelMax b c) := by
  rcases ha with h | h | h | h <;> rcases hb with h2 | h2 | h2 | h2 <;>
    rcases hc with h3 | h3 | h3 | h3 <;> subst h <;> subst h2 <;> subst h3 <;> decide

lemma specLevel_cons (c : Commit) (rest : List Commit) :
    specLevel (c :: rest) = levelMax (commitLevel c) (specLevel rest) := by
  rcases Bool.eq_false_or_eq_true (isBreakingRelevant c) with hb | hb <;>
    rcases Bool.eq_false_or_eq_true (isFeatCommit c) with hf | hf <;>
      rcases Bool.eq_false_or_eq_true (isFixCommit c) with hx | hx <;>
        rcases Bool.eq_false_or_eq_true (rest.any isBreakingRelevant) with h1 | h1 <;>
          rcases Bool.eq_false_or_eq_true (rest.any isFeatCommit) with h2 | h2 <;>
            rcases Bool.eq_false_or_eq_true (rest.any isFixCommit) with h3 | h3 <;>
              simp only [specLevel, commitLevel, List.any_cons, hb, hf, hx, h1, h2, h3] <;>
                decide

lemma fullScan_aux (cs : List Commit) : ∀ acc : Str, isCanonLevel acc →
    cs.foldl (fun a c => levelMax a (commitLevel c)) acc = levelMax acc (specLevel cs) := by
  induction cs with
  | nil =>
    intro acc _
    simp only [List.foldl_nil, specLevel, List.any_nil, if_false, Bool.false_eq_true,
      levelMax_none_right]
  | cons c rest ih =>
    intro acc hacc
    rw [List.foldl_cons, ih _ (levelMax_canonical hacc (commitLevel_canonical c)),
      specLevel_cons,
      levelMax_assoc_canonical hacc (commitLevel_canonical c) (specLevel_canonical rest)]

lemma specFullScanBump_eq_specLevel (cs : List Commit) :
    specFullScanBump cs = specLevel cs := by
  unfold specFullScanBump
  rw [fullScan_aux cs _ (Or.inl rfl)]
  rcases specLevel_canonical cs with h | h | h | h <;> rw [h] <;> decide

lemma any_congr_of_perm {α : Type} {l1 l2 : List α} (h : l1.Perm l2) (p : α → Bool) :
    l1.any p = l2.any p := by
  cases h1 : l1.any p <;> cases h2 : l2.any p
  · rfl
  · rw [List.any_eq_true] at h2
    obtain ⟨x, hx, hp⟩ := h2
    have hcontra : l1.any p = true := List.any_eq_true.mpr ⟨x, h.mem_iff.mpr hx, hp⟩
    rw [h1] at hcontra
    exact absurd hcontra Bool.false_ne_true
  · rw [List.any_eq_true] at h1
    obtain ⟨x, hx, hp⟩ := h1
    have hcontra : l2.any p = true := List.any_eq_true.mpr ⟨x, h.mem_iff.mp hx, hp⟩
    rw [h2] at hcontra
    exact absurd hcontra Bool.false_ne_true
  · rfl

lemma determineBump_eq_specLevel (cs : List Commit) : DetermineBump cs = specLevel cs :=
  determineBump_characterization cs

/-- C7: `DetermineBump` is order-independent — permuting the commit sequence
never changes the level — and agrees with a full scan that folds per-commit
levels with the severity maximum, so the breaking-change short-circuit is
observationally equivalent to scanning the whole sequence. -/
theorem claim_C7_order_independence (l1 l2 : List Commit) (h : l1.Perm l2) :
    DetermineBump l1 = DetermineBump l2 ∧
    DetermineBump l1 = specFullScanBump l1 := by
  constructor
  · rw [determineBump_eq_specLevel, determineBump_eq_specLevel]
    unfold specLevel
    rw [any_congr_of_perm h, any_congr_of_perm h, any_congr_of_perm h]
  · rw [determineBump_eq_specLevel, specFullScanBump_eq_specLevel]

/-- A feat commit used in concrete instances. -/
def featCommitX : Commit := { ctype := ("feat".toList) }

/-- A fix commit used in concrete instances. -/
def fixCommitX : Commit := { ctype := ("fix".toList) }

/-- Witness for C7 at the concrete swap of a fix and a feat commit. -/
theorem claim_C7_witness :
    DetermineBump [fixCommitX, featCommitX] = DetermineBump [featCommitX, fixCommitX] ∧
    DetermineBump [fixCommitX, featCommitX] = specFullScanBump [fixCommitX, featCommitX] :=
  claim_C7_order_independence _ _ (List.Perm.swap featCommitX fixCommitX [])

/-- Witness for C1: in `cfgMobile`, a commit scoped to the unconfigured name
`customerZ` resolves to both of the touched product's variants and the
product is not dropped. -/
theorem claim_C1_witness :
    FilterVariantsByScope cfgMobile [("mobile".toList)] ("customerZ".toList) =
      (if ("customerZ".toList) ∈ pcMobile.Variants
       then [⟨("mobile".toList), ("customerZ".toList), pcMobile.tagPfx⟩]
       else pcMobile.Variants.map (fun v => ⟨("mobile".toList), v, pcMobile.tagPfx⟩)) ∧
    FilterVariantsByScope cfgMobile [("mobile".toList)] ("customerZ".toList) ≠ [] ∧
    FilterVariantsByScope cfgMobile [("mobile".toList)] ("customerZ".toList) =
      ([("mobile".toList)]).flatMap
        (fun q => FilterVariantsByScope cfgMobile [q] ("customerZ".toList)) :=
  claim_C1_scope_refine_or_widen cfgMobile [("mobile".toList)] ("customerZ".toList)
    ("mobile".toList) pcMobile (by decide) (by decide) (by decide)

lemma parseTargetLoop_isSome (target : Str) (entries : List (Str × ProductConfig)) :
    (parseTargetLoop target entries).isSome = true ↔
      ∃ p pc v, (p, pc) ∈ entries ∧ v ∈ pc.Variants ∧ target = p ++ ('-' :: v) := by
  induction entries with
  | nil => simp [parseTargetLoop]
  | cons e rest ih =>
    obtain ⟨productName, pc⟩ := e
    rw [parseTargetLoop]
    by_cases hlw : leadsWith (productName ++ ['-']) target = true
    · rw [if_pos hlw]
      obtain ⟨restStr, hrest⟩ := (leadsWith_iff _ _).mp hlw
      have hlen : (productName ++ ['-']).length = productName.length + 1 := by simp
      have hdrop : target.drop (productName.length + 1) = restStr := by
        rw [hrest, ← hlen, List.drop_left]
      cases hfind : pc.Variants.find?
          (fun v => decide (v = target.drop (productName.length + 1))) with
      | some v =>
        have hveq : v = restStr := by
          have := List.find?_some hfind
          rw [hdrop] at this
          exact of_decide_eq_true this
        have hvmem : v ∈ pc.Variants := List.mem_of_find?_eq_some hfind
        rw [← hveq] at hrest
        simp only [Option.isSome_some, true_iff]
        refine ⟨productName, pc, v, List.mem_cons_self _ _, hvmem, ?_⟩
        rw [hrest, List.append_assoc]
        rfl
      | none =>
        rw [ih]
        have hnone : ∀ v ∈ pc.Variants, target ≠ productName ++ ('-' :: v) := by
          intro v hv htgt
          have hv2 : v = restStr := by
            have : productName ++ ('-' :: v) = (productName ++ ['-']) ++ v := by
              rw [List.append_assoc]
              rfl
            rw [this] at htgt
            rw [hrest] at htgt
            exact (List.append_cancel_left htgt).symm
          rw [List.find?_eq_none] at hfind
          exact hfind v hv (by simp [hdrop, hv2])
        constructor
        · rintro ⟨p, pc2, v, hmem, hvv, htgt⟩
          exact ⟨p, pc2, v, List.mem_cons_of_mem _ hmem, hvv, htgt⟩
        · rintro ⟨p, pc2, v, hmem, hvv, htgt⟩
          rcases List.mem_cons.mp hmem with heq | hmem2
          · obtain ⟨rfl, rfl⟩ : p = productName ∧ pc2 = pc := by
              constructor <;> [exact congrArg Prod.fst heq; exact congrArg Prod.snd heq]
            exact absurd htgt (hnone v hvv)
          · exact ⟨p, pc2, v, hmem2, hvv, htgt⟩
    · rw [if_neg hlw, ih]
      constructor
      · rintro ⟨p, pc2, v, hmem, hvv, htgt⟩
        exact ⟨p, pc2, v, List.mem_cons_of_mem _ hmem, hvv, htgt⟩
      · rintro ⟨p, pc2, v, hmem, hvv, htgt⟩
        rcases List.mem_cons.mp hmem with heq | hmem2
        · obtain ⟨rfl, rfl⟩ : p = productName ∧ pc2 = pc := by
            constructor <;> [exact congrArg Prod.fst heq; exact congrArg Prod.snd heq]
          exfalso
          apply hlw
          rw [leadsWith_iff]
          refine ⟨v, ?_⟩
          rw [htgt, List.append_assoc]
          rfl
        · exact ⟨p, pc2, v, hmem2, hvv, htgt⟩

/-- C9: resolving a `--target` string succeeds exactly when the target is
the bare name of a variant-less product, or is some product's name followed
by a hyphen and one of that product's configured variants; in particular
the bare name of a product that has variants fails. -/
theorem claim_C9_parseTarget_success (cfg : Config) (target : Str) :
    (parseTarget cfg target).isSome = true ↔
      ((∃ pc, findProduct cfg target = some pc ∧ pc.Variants = []) ∨
       (∃ p pc v, (p, pc) ∈ cfg.Products ∧ v ∈ pc.Variants ∧
         target = p ++ ('-' :: v))) := by
  rcases hfp : findProduct cfg target with _ | pc
  · have e1 : parseTarget cfg target = parseTargetLoop target cfg.Products := by
      unfold parseTarget
      rw [hfp]
    rw [e1, parseTargetLoop_isSome]
    constructor
    · exact Or.inr
    · rintro (⟨pc2, hpc2, _⟩ | h)
      · exact Option.noConfusion hpc2
      · exact h
  · by_cases hv : pc.Variants.length = 0
    · have e2 : parseTarget cfg target = some ⟨target, [], []⟩ := by
        unfold parseTarget
        rw [hfp]
        exact if_pos hv
      rw [e2]
      simp only [Option.isSome_some, true_iff]
      exact Or.inl ⟨pc, rfl, List.length_eq_zero.mp hv⟩
    · have e3 : parseTarget cfg target = parseTargetLoop target cfg.Products := by
        unfold parseTarget
        rw [hfp]
        exact if_neg hv
      rw [e3, parseTargetLoop_isSome]
      constructor
      · exact Or.inr
      · rintro (⟨pc2, hpc2, hnil⟩ | h)
        · rw [Option.some.injEq] at hpc2
          obtain rfl := hpc2
          exact absurd (show pc.Variants.length = 0 by rw [hnil]; rfl) hv
        · exact h

/-- Stripping the optional leading `v` of a version string
(Go `strings.TrimPrefix(s, "v")`). -/
def trimLeadingV (s : Str) : Str :=
  match s with
  | 'v' :: rest => rest
  | _ => s

/-- Go `strings.Split(s, ".")`: the dot-separated pieces, always at least
one (the empty string splits to one empty piece). -/
def splitOnDot : Str → List Str
  | [] => [[]]
  | c :: rest =>
    if c = '.' then [] :: splitOnDot rest
    else
      match splitOnDot rest with
      | [] => [[c]]
      | hd :: tl => (c :: hd) :: tl

/-- The numeric value of a digit string. -/
def digitsToNat (ds : Str) : Nat :=
  ds.foldl (fun acc c => acc * 10 + (c.toNat - 48)) 0

/-- The largest value of Go's 64-bit `int`. -/
def int64Max : Nat := 9223372036854775807

/-- Go `strconv.Atoi` (i.e. `ParseInt(s, 10, 0)` with 64-bit `int`): an
optional sign followed by one or more decimal digits, failing on the empty
string, on any other character and on 64-bit overflow. -/
def goAtoi (s : Str) : Option Int :=
  match s with
  | [] => none
  | c :: rest =>
    if c = '+' then
      (if rest ≠ [] ∧ rest.all Char.isDigit = true then
        (if digitsToNat rest ≤ int64Max then some (digitsToNat rest : Int) else none)
       else none)
    else if c = '-' then
      (if rest ≠ [] ∧ rest.all Char.isDigit = true then
        (if digitsToNat rest ≤ int64Max + 1 then some (-(digitsToNat rest : Int)) else none)
       else none)
    else
      (if (c :: rest).all Char.isDigit = true then
        (if digitsToNat (c :: rest) ≤ int64Max then some (digitsToNat (c :: rest) : Int) else none)
       else none)

/-- A semantic version (Go struct `version.Version`). -/
structure Version where
  Major : Int
  Minor : Int
  Patch : Int
deriving DecidableEq

/-- Go `version.Parse`: strip an optional leading `v`, split on dots,
require exactly three components, parse each with `Atoi` and reject
negative components. -/
def Version.parse (s : Str) : Option Version :=
  match splitOnDot (trimLeadingV s) with
  | [a, b, c] =>
    (match goAtoi a, goAtoi b, goAtoi c with
     | some major, some minor, some patch =>
       if major < 0 ∨ minor < 0 ∨ patch < 0 then none
       else some ⟨major, minor, patch⟩
     | _, _, _ => none)
  | _ => none

/-- A version component as the spec admits it: a string Go reads as a
non-negative integer — decimal digits, optionally preceded by `+`, or by
`-` when the value is zero, within the 64-bit range. -/
def goodComponent (p : Str) : Bool :=
  match p with
  | [] => false
  | c :: rest =>
    if c = '+' then
      decide (rest ≠ []) && rest.all Char.isDigit && decide (digitsToNat rest ≤ int64Max)
    else if c = '-' then
      decide (rest ≠ []) && rest.all Char.isDigit && decide (digitsToNat rest = 0)
    else
      (c :: rest).all Char.isDigit && decide (digitsToNat (c :: rest) ≤ int64Max)

/-- The success set of `Version.parse` as the spec words it: after the
optional `v` is stripped, exactly three dot-separated components, each a
non-negative integer. -/
def versionShape (s : Str) : Bool :=
  match splitOnDot (trimLeadingV s) with
  | [a, b, c] => goodComponent a && goodComponent b && goodComponent c
  | _ => false

lemma bool_eq_of_iff {a b : Bool} (h : a = true ↔ b = true) : a = b := by
  cases a <;> cases b <;> simp_all

lemma goodComponent_iff (p : Str) :
    goodComponent p = true ↔ ∃ k : Int, goAtoi p = some k ∧ 0 ≤ k := by
  cases p with
  | nil => simp [goodComponent, goAtoi]
  | cons c rest =>
    by_cases hplus : c = '+'
    · subst hplus
      rw [goodComponent, goAtoi, if_pos rfl, if_pos rfl]
      by_cases h1 : rest ≠ [] ∧ rest.all Char.isDigit = true
      · rw [if_pos h1]
        obtain ⟨h1a, h1b⟩ := h1
        by_cases h2 : digitsToNat rest ≤ int64Max
        · rw [if_pos h2]
          constructor
          · intro _
            exact ⟨(digitsToNat rest : Int), rfl, Int.ofNat_nonneg _⟩
          · intro _
            simp [h1a, h1b, h2]
        · rw [if_neg h2]
          constructor
          · intro h
            exfalso
            simp only [Bool.and_eq_true, decide_eq_true_eq] at h
            exact h2 h.2
          · rintro ⟨k, hk, _⟩
            exact Option.noConfusion hk
      · rw [if_neg h1]
        constructor
        · intro h
          exfalso
          simp only [Bool.and_eq_true, decide_eq_true_eq] at h
          exact h1 ⟨h.1.1, h.1.2⟩
        · rintro ⟨k, hk, _⟩
          exact Option.noConfusion hk
    · by_cases hminus : c = '-'
      · subst hminus
        rw [goodComponent, goAtoi, if_neg hplus, if_pos rfl, if_neg hplus, if_pos rfl]
        by_cases h1 : rest ≠ [] ∧ rest.all Char.isDigit = true
        · rw [if_pos h1]
          obtain ⟨h1a, h1b⟩ := h1
          by_cases h0 : digitsToNat rest = 0
          · rw [if_pos (show digitsToNat rest ≤ int64Max + 1 by omega)]
            constructor
            · intro _
              refine ⟨-(digitsToNat rest : Int), rfl, ?_⟩
              omega
            · intro _
              simp [h1a, h1b, h0]
          · by_cases h2 : digitsToNat rest ≤ int64Max + 1
            · rw [if_pos h2]
              constructor
              · intro h
                exfalso
                simp only [Bool.and_eq_true, decide_eq_true_eq] at h
                exact h0 h.2
              · rintro ⟨k, hk, hk0⟩
                rw [Option.some.injEq] at hk
                subst hk
                exfalso
                omega
            · rw [if_neg h2]
              constructor
              · intro h
                exfalso
                simp only [Bool.and_eq_true, decide_eq_true_eq] at h
                exact h0 h.2
              · rintro ⟨k, hk, _⟩
                exact Option.noConfusion hk
        · rw [if_neg h1]
          constructor
          · intro h
            exfalso
            simp only [Bool.and_eq_true, decide_eq_true_eq] at h
            exact h1 ⟨h.1.1, h.1.2⟩
          · rintro ⟨k, hk, _⟩
            exact Option.noConfusion hk
      · rw [goodComponent, goAtoi]
        rw [if_neg hplus, if_neg hminus, if_neg hplus, if_neg hminus]
        by_cases h1 : (c :: rest).all Char.isDigit = true
        · rw [if_pos h1, h1]
          by_cases h2 : digitsToNat (c :: rest) ≤ int64Max
          · rw [if_pos h2]
            constructor
            · intro _
              exact ⟨(digitsToNat (c :: rest) : Int), rfl, Int.ofNat_nonneg _⟩
            · intro _
              simp [h2]
          · rw [if_neg h2]
            constructor
            · intro h
              exfalso
              simp only [Bool.true_and, decide_eq_true_eq] at h
              exact h2 h
            · rintro ⟨k, hk, _⟩
              exact Option.noConfusion hk
        · rw [if_neg h1]
          rw [Bool.not_eq_true] at h1
          rw [h1]
          simp only [Bool.false_and]
          constructor
          · intro h
            exact absurd h Bool.false_ne_true
          · rintro ⟨k, hk, _⟩
            exact Option.noConfusion hk

/-- C6: version parsing succeeds exactly on strings that, after the optional
leading `v` is stripped, consist of exactly three dot-separated components
each read as a non-negative integer; every other shape fails. -/
theorem claim_C6_version_parse_success (s : Str) :
    (Version.parse s).isSome = versionShape s := by
  unfold Version.parse versionShape
  generalize splitOnDot (trimLeadingV s) = ps
  rcases ps with _ | ⟨a, _ | ⟨b, _ | ⟨c, _ | ⟨d, t⟩⟩⟩⟩
  · rfl
  · rfl
  · rfl
  · show (match goAtoi a, goAtoi b, goAtoi c with
       | some major, some minor, some patch =>
         if major < 0 ∨ minor < 0 ∨ patch < 0 then none
         else some (Version.mk major minor patch)
       | _, _, _ => (none : Option Version)).isSome =
      (goodComponent a && goodComponent b && goodComponent c)
    cases ha : goAtoi a with
    | none =>
      have ga : goodComponent a = false := by
        rw [← Bool.not_eq_true, goodComponent_iff]
        rintro ⟨k, hk, _⟩
        rw [ha] at hk
        exact Option.noConfusion hk
      rw [ga]
      rfl
    | some ka =>
      cases hb : goAtoi b with
      | none =>
        have gb : goodComponent b = false := by
          rw [← Bool.not_eq_true, goodComponent_iff]
          rintro ⟨k, hk, _⟩
          rw [hb] at hk
          exact Option.noConfusion hk
        rw [gb]
        simp
      | some kb =>
        cases hc : goAtoi c with
        | none =>
          have gc : goodComponent c = false := by
            rw [← Bool.not_eq_true, goodComponent_iff]
            rintro ⟨k, hk, _⟩
            rw [hc] at hk
            exact Option.noConfusion hk
          rw [gc]
          simp
        | some kc =>
          have ga : goodComponent a = decide (0 ≤ ka) := by
            apply bool_eq_of_iff
            rw [goodComponent_iff, ha]
            simp
          have gb : goodComponent b = decide (0 ≤ kb) := by
            apply bool_eq_of_iff
            rw [goodComponent_iff, hb]
            simp
          have gc : goodComponent c = decide (0 ≤ kc) := by
            apply bool_eq_of_iff
            rw [goodComponent_iff, hc]
            simp
          show (if ka < 0 ∨ kb < 0 ∨ kc < 0 then (none : Option Version)
              else some (Version.mk ka kb kc)).isSome =
            (goodComponent a && goodComponent b && goodComponent c)
          rw [ga, gb, gc]
          by_cases hneg : ka < 0 ∨ kb < 0 ∨ kc < 0
          · rw [if_pos hneg]
            rcases hneg with h | h | h
            · have : decide ((0 : Int) ≤ ka) = false := decide_eq_false (by omega)
              simp [this]
            · have : decide ((0 : Int) ≤ kb) = false := decide_eq_false (by omega)
              simp [this]
            · have : decide ((0 : Int) ≤ kc) = false := decide_eq_false (by omega)
              simp [this]
          · rw [if_neg hneg]
            have d1 : decide ((0 : Int) ≤ ka) = true := decide_eq_true (by omega)
            have d2 : decide ((0 : Int) ≤ kb) = true := decide_eq_true (by omega)
            have d3 : decide ((0 : Int) ≤ kc) = true := decide_eq_true (by omega)
            rw [d1, d2, d3]
            rfl
  · rfl

/-- A word character of the classifier's pattern `\w`: ASCII letters,
digits and underscore. -/
def isWordChar (c : Char) : Bool := c.isAlphanum || c = '_'

/-- A whitespace character of the classifier's pattern `\s`:
space, tab, newline, form feed, carriage return. -/
def isWsRE (c : Char) : Bool :=
  c = ' ' || c = '\t' || c = '\n' || c = '\x0c' || c = '\r'

/-- The parts a conventional-commit subject is decomposed into by the
classifier's anchored pattern: type, optional scope (empty when absent),
optional bang, description. -/
structure ConvHeader where
  ctype : Str
  scope : Str
  bang : Bool
  description : Str
deriving DecidableEq

/-- The tail of the subject after type and optional scope: an optional `!`,
then whitespace, a colon, whitespace, and a description that may not
contain a newline (the pattern's `.` and its end-of-text anchor). -/
def parseTail (t sc : Str) (r : Str) : Option ConvHeader :=
  let bang := (match r with | '!' :: _ => true | _ => false)
  let r2 := (match r with | '!' :: rr => rr | _ => r)
  match r2.dropWhile isWsRE with
  | ':' :: r4 =>
    (let d := r4.dropWhile isWsRE
     if '\n' ∈ d then none else some ⟨t, sc, bang, d⟩)
  | _ => none

/-- The classifier's subject grammar `type(scope)!: description` with
`(scope)` and `!` optional: a deterministic rendering of the anchored
pattern the Go code matches (each quantified piece of that pattern meets a
following character it can never consume, so the backtracking search has at
most one successful split). -/
def parseConv (subject : Str) : Option ConvHeader :=
  let t := subject.takeWhile isWordChar
  let r1 := subject.dropWhile isWordChar
  if t = [] then none
  else
    match r1 with
    | '(' :: r =>
      (let sc := r.takeWhile (fun c => decide (c ≠ ')'))
       let r2 := r.dropWhile (fun c => decide (c ≠ ')'))
       if sc = [] then none
       else
         match r2 with
         | ')' :: r3 => parseTail t sc r3
         | _ => none)
    | _ => parseTail t [] r1

/-- Go `strings.Contains`. -/
def containsSub : Str → Str → Bool
  | [], sub => leadsWith sub []
  | c :: rest, sub => leadsWith sub (c :: rest) || containsSub rest sub

/-- Go `commit.containsBreakingChange`: upper-case the body and look for
either literal marker. Go upper-cases runes Unicode-wide; on the ASCII
strings modelled here that is exactly `Char.toUpper`. -/
def containsBreakingChange (body : Str) : Bool :=
  containsSub (body.map Char.toUpper) ("BREAKING CHANGE:".toList) ||
  containsSub (body.map Char.toUpper) ("BREAKING-CHANGE:".toList)

/-- Go `commit.Parse`: classify a subject and body into a `Commit`. A
subject that does not match the grammar yields an empty type and scope,
no breaking flag and the verbatim subject as description. -/
def Commit.parse (subject body : Str) : Commit :=
  match parseConv subject with
  | none => { ctype := [], scope := [], description := subject, breaking := false }
  | some h =>
    let breaking0 := h.bang
    let breaking :=
      if breaking0 = false ∧ containsBreakingChange body = true then true else breaking0
    { ctype := h.ctype, scope := h.scope, description := h.description, breaking := breaking }

/-- The spec's reading of the body marker: the body contains, at some
position, a run of characters that equals the token up to letter case. -/
def ciContains (s tok : Str) : Prop :=
  ∃ pre mid post, s = pre ++ mid ++ post ∧ mid.map Char.toUpper = tok.map Char.toUpper

lemma containsSub_iff (sub : Str) : ∀ s : Str,
    containsSub s sub = true ↔ ∃ pre post, s = pre ++ sub ++ post := by
  intro s
  induction s with
  | nil =>
    rw [containsSub, leadsWith_iff]
    constructor
    · rintro ⟨r, hr⟩
      exact ⟨[], r, by simpa using hr⟩
    · rintro ⟨pre, post, hp⟩
      obtain ⟨hpre, hsub⟩ : pre = [] ∧ sub ++ post = [] := by
        have := hp.symm
        rw [List.append_assoc] at this
        exact List.append_eq_nil.mp this
      obtain ⟨h1, h2⟩ := List.append_eq_nil.mp hsub
      exact ⟨post, by simp [h1, h2]⟩
  | cons c rest ih =>
    rw [containsSub, Bool.or_eq_true, leadsWith_iff, ih]
    constructor
    · rintro (⟨r, hr⟩ | ⟨pre, post, hp⟩)
      · exact ⟨[], r, by simpa using hr⟩
      · exact ⟨c :: pre, post, by simp [hp]⟩
    · rintro ⟨pre, post, hp⟩
      cases pre with
      | nil => exact Or.inl ⟨post, by simpa using hp⟩
      | cons pc pre2 =>
        right
        refine ⟨pre2, post, ?_⟩
        have : c :: rest = pc :: (pre2 ++ sub ++ post) := by simpa using hp
        exact (List.cons.injEq _ _ _ _ ▸ this).2

lemma map_toUpper_split (s tok : Str) :
    (∃ pre post, s.map Char.toUpper = pre ++ tok ++ post) ↔
    (∃ pre mid post, s = pre ++ mid ++ post ∧ mid.map Char.toUpper = tok) := by
  constructor
  · rintro ⟨pre, post, h⟩
    rw [List.append_assoc] at h
    obtain ⟨l1, l2, hsplit, hm1, hm2⟩ := List.append_eq_map_iff.mp h.symm
    obtain ⟨l3, l4, hsplit2, hm3, hm4⟩ := List.append_eq_map_iff.mp hm2.symm
    exact ⟨l1, l3, l4, by rw [hsplit, hsplit2, List.append_assoc], hm3⟩
  · rintro ⟨pre, mid, post, rfl, hmid⟩
    exact ⟨pre.map Char.toUpper, post.map Char.toUpper, by simp [hmid]⟩

lemma containsBreakingChange_iff (body : Str) :
    containsBreakingChange body = true ↔
      (ciContains body ("BREAKING CHANGE:".toList) ∨
       ciContains body ("BREAKING-CHANGE:".toList)) := by
  have ht1 : ("BREAKING CHANGE:".toList).map Char.toUpper = ("BREAKING CHANGE:".toList) := by
    decide
  have ht2 : ("BREAKING-CHANGE:".toList).map Char.toUpper = ("BREAKING-CHANGE:".toList) := by
    decide
  rw [containsBreakingChange, Bool.or_eq_true, containsSub_iff, containsSub_iff]
  unfold ciContains
  rw [ht1, ht2, map_toUpper_split, map_toUpper_split]

/-- C4: the classifier sets `breaking` exactly when the subject matches the
conventional grammar and either carries `!` immediately before the colon,
or the body contains, case-insensitively, `BREAKING CHANGE:` or
`BREAKING-CHANGE:` anywhere. -/
theorem claim_C4_breaking_flag (subject body : Str) :
    (Commit.parse subject body).breaking = true ↔
      (∃ h, parseConv subject = some h ∧
        (h.bang = true ∨ ciContains body ("BREAKING CHANGE:".toList) ∨
          ciContains body ("BREAKING-CHANGE:".toList))) := by
  cases hp : parseConv subject with
  | none =>
    rw [Commit.parse]
    rw [hp]
    simp
  | some h =>
    rw [Commit.parse, hp]
    show (if h.bang = false ∧ containsBreakingChange body = true then true else h.bang) = true ↔
      (∃ h2, some h = some h2 ∧
        (h2.bang = true ∨ ciContains body ("BREAKING CHANGE:".toList) ∨
          ciContains body ("BREAKING-CHANGE:".toList)))
    cases hbang : h.bang with
    | true =>
      constructor
      · intro _
        exact ⟨h, rfl, Or.inl hbang⟩
      · intro _
        simp
    | false =>
      cases hcbc : containsBreakingChange body with
      | true =>
        constructor
        · intro _
          exact ⟨h, rfl, Or.inr ((containsBreakingChange_iff body).mp hcbc)⟩
        · intro _
          simp
      | false =>
        constructor
        · intro hcontra
          simp at hcontra
        · rintro ⟨h2, hh2, hor⟩
          rw [Option.some.injEq] at hh2
          subst hh2
          rcases hor with hb | hci
          · rw [hbang] at hb
            exact absurd hb Bool.false_ne_true
          · have hc2 : containsBreakingChange body = true :=
              (containsBreakingChange_iff body).mpr hci
            rw [hcbc] at hc2
            exact absurd hc2 Bool.false_ne_true
